import Mathlib

/-!
Shallow embedding of the IntelliDocument-Search core
(`document_search.py`, with the feedback call sites of `app.py`).

Strings are modelled as `List Char`, Python floats as `Rat` (the arithmetic of
the spec is exact), and the metadata dicts as a structure whose optional
fields are `Option` values.  External collaborators (the embedding model,
FAISS, the LLM) are modelled as boundary inputs: the raw answer of the vector
index enters `search_results` as a list of (score, index) pairs.
-/

namespace DocSearch

/-- One step of the Python str.split grouping: a whitespace character opens a
fresh (possibly empty) group, any other character is prepended to the current
head group. -/
def splitStep (c : Char) (acc : List (List Char)) : List (List Char) :=
  if c.isWhitespace then [] :: acc
  else
    match acc with
    | [] => [[c]]
    | w :: ws => (c :: w) :: ws

/-- The raw groups of `str.split()` before empty groups are discarded. -/
def rawSplit (s : List Char) : List (List Char) :=
  s.foldr splitStep []

/-- Model of the Python whitespace split (str.split with no argument): split on
whitespace runs, dropping empty pieces.  Used by the chunker on content.split(). -/
def splitWords (s : List Char) : List (List Char) :=
  (rawSplit s).filter (fun w => w ≠ [])

/-- Model of the single-space join the chunker applies to a word window. -/
def joinWords : List (List Char) → List Char
  | [] => []
  | [w] => w
  | w :: ws => w ++ ' ' :: joinWords ws

/-- Truthiness of `chunk.strip()`: true iff some character is not whitespace. -/
def hasNonWs (s : List Char) : Bool :=
  s.any (fun c => !c.isWhitespace)

/-- The word windows visited by the loop
`for i in range(0, len(words), chunk_size - overlap): words[i:i + chunk_size]`
of `_split_into_chunks`, expressed by recursion on the suffix starting at the
current index `i` (the window at `i`, then the windows at `i + step`, ...).
`step = 0` (Python: `range` with zero step raises) yields no windows. -/
def chunkWindows (size step : Nat) : List α → List (List α)
  | [] => []
  | w :: ws =>
    if _h : step = 0 then []
    else ((w :: ws).take size) :: chunkWindows size step ((w :: ws).drop step)
termination_by l => l.length
decreasing_by
  simp only [List.length_drop, List.length_cons]
  omega

/-- The chunker `DocumentSearchEngine._split_into_chunks`:
whitespace-tokenize, slide a window of `chunk_size` words advancing by
`chunk_size - overlap`, join each window with single spaces, keep the chunks
whose `strip()` is truthy. -/
def split_into_chunks (content : List Char) (chunk_size overlap : Nat) : List (List Char) :=
  ((chunkWindows chunk_size (chunk_size - overlap) (splitWords content)).map joinWords).filter
    hasNonWs

/-- Per-document metadata produced by `_extract_metadata` (a regex boundary we
take as input): filename, title, the optional date/author/location fields and
the default page number. -/
structure BaseMeta where
  filename : List Char
  title : List Char
  date : Option (List Char)
  author : Option (List Char)
  location : Option (List Char)
  page : Nat
deriving DecidableEq

/-- One entry of `self.metadata`: the extracted document fields plus
`chunk_id` (the per-document ordinal), `total_chunks`, the (possibly
truncated) `chunk_text`, and the `relevance_score` key, absent until feedback
or result shaping writes it. -/
structure Metadata where
  filename : List Char
  title : List Char
  date : Option (List Char)
  author : Option (List Char)
  location : Option (List Char)
  page : Nat
  chunk_id : Nat
  total_chunks : Nat
  chunk_text : List Char
  relevance_score : Option Rat
deriving DecidableEq

/-- The truncation chunk[:300] + "..." applied to stored chunk text by
`_load_documents` when the chunk exceeds 300 characters. -/
def truncate300 (s : List Char) : List Char :=
  if 300 < s.length then s.take 300 ++ ('.' :: '.' :: '.' :: []) else s

/-- Ingest `_load_documents`: chunk every document and append, per chunk, the chunk
text to `document_chunks` and a metadata record carrying the extracted
document fields, the local `chunk_id` `i`, `total_chunks`, and the truncated
chunk text, to `metadata`.  Document enumeration and metadata extraction are
boundaries; they enter as the `(BaseMeta, content)` pairs. -/
def load_documents (docs : List (BaseMeta × List Char)) (chunk_size overlap : Nat) :
    List (List Char) × List Metadata :=
  docs.foldl
    (fun acc d =>
      let chunks := split_into_chunks d.2 chunk_size overlap
      (acc.1 ++ chunks,
       acc.2 ++ chunks.enum.map (fun p =>
         { filename := d.1.filename
           title := d.1.title
           date := d.1.date
           author := d.1.author
           location := d.1.location
           page := d.1.page
           chunk_id := p.1
           total_chunks := chunks.length
           chunk_text := truncate300 p.2
           relevance_score := none })))
    ([], [])

/-- The filter keys the application builds (`app.py`: date, author, location,
title). -/
inductive FilterKey
  | date
  | author
  | location
  | title
deriving DecidableEq

/-- The presence test key in metadata and metadata[key] for a filter key: the
field value when it is present and truthy (a non-empty string), else `none`. -/
def truthyField (m : Metadata) : FilterKey → Option (List Char)
  | .date => m.date.bind (fun v => if v = [] then none else some v)
  | .author => m.author.bind (fun v => if v = [] then none else some v)
  | .location => m.location.bind (fun v => if v = [] then none else some v)
  | .title => if m.title = [] then none else some m.title

/-- Model of the Python substring test (sub in s): `needle` occurs contiguously
in `hay`. -/
def occursIn (needle : List Char) : List Char → Bool
  | [] => needle.isEmpty
  | c :: rest => needle.isPrefixOf (c :: rest) || occursIn needle rest

/-- Model of the Python str.lower() (ASCII-faithful). -/
def lowerStr (s : List Char) : List Char :=
  s.map Char.toLower

/-- The filter engine `DocumentSearchEngine._apply_filters`: for each filter
pair whose key is present and truthy in the record, `date` requires substring
containment (case-sensitive), `author`/`location` require case-insensitive
substring containment, anything else exact equality; a falsy filter value
skips the date/author/location checks; pairs whose field is absent or falsy
are skipped; the record passes iff no check fails. -/
def apply_filters (m : Metadata) (filters : List (FilterKey × List Char)) : Bool :=
  filters.all (fun p =>
    match truthyField m p.1 with
    | none => true
    | some field =>
      match p.1 with
      | .date => p.2 = [] || occursIn p.2 field
      | .author => p.2 = [] || occursIn (lowerStr p.2) (lowerStr field)
      | .location => p.2 = [] || occursIn (lowerStr p.2) (lowerStr field)
      | .title => p.2 = field)

/-- The relevance-score sort key of a result record (always present on
results; `0` stands in for the unreachable missing case). -/
def rsVal (m : Metadata) : Rat :=
  m.relevance_score.getD 0

/-- Insert into a descending-sorted list, before the first element with a
smaller-or-equal key (stable, matching `list.sort(key=..., reverse=True)`). -/
def insertDesc (key : α → Rat) (a : α) : List α → List α
  | [] => [a]
  | b :: bs => if key b ≤ key a then a :: b :: bs else b :: insertDesc key a bs

/-- Stable descending sort by key, modelling `list.sort(key=..., reverse=True)`. -/
def sortDesc (key : α → Rat) : List α → List α
  | [] => []
  | a :: as => insertDesc key a (sortDesc key as)

/-- The score accumulated by `keyword_search` for one chunk: the number of
keywords whose lowercase form occurs in the lowercased chunk. -/
def countHits (keywords : List (List Char)) (chunk : List Char) : Nat :=
  (keywords.filter (fun kw => occursIn (lowerStr kw) (lowerStr chunk))).length

/-- Keyword search `DocumentSearchEngine.keyword_search` over the aligned
`document_chunks`/`metadata` sequences: keep the chunks with a positive hit
count, attach `relevance_score = score / len(keywords)` and the full chunk
text, sort descending by relevance score, truncate to `top_k`. -/
def keyword_search (keywords : List (List Char)) (chunks : List (List Char))
    (meta : List Metadata) (top_k : Nat) : List Metadata :=
  (sortDesc rsVal ((chunks.zip meta).filterMap (fun p =>
    if 0 < countHits keywords p.1 then
      some { p.2 with
              relevance_score := some ((countHits keywords p.1 : Rat) / (keywords.length : Rat))
              chunk_text := p.1 }
    else none))).take top_k

/-- The smoothing arithmetic of `update_relevance_score`:
`updated_score = (current_score + feedback_score) / 2`. -/
def feedbackStep (current fb : Rat) : Rat :=
  (current + fb) / 2

/-- Feedback `DocumentSearchEngine.update_relevance_score`:
when `0 <= chunk_id < len(self.metadata)`, replace the stored relevance
score of the record (defaulting to `0.5` when the key is absent)
by the smoothed value; otherwise do nothing. -/
def update_relevance_score (meta : List Metadata) (chunk_id : Int) (fb : Rat) :
    List Metadata :=
  if 0 ≤ chunk_id ∧ chunk_id < (meta.length : Int) then
    match meta.get? chunk_id.toNat with
    | some m =>
        meta.set chunk_id.toNat
          { m with relevance_score := some (feedbackStep (m.relevance_score.getD (1/2)) fb) }
    | none => meta
  else meta

/-- Iterated positive feedback: `n` successive calls of the smoothing step
with feedback value `1.0`. -/
def iterateFeedback : Nat → Rat → Rat
  | 0, s => s
  | n + 1, s => feedbackStep (iterateFeedback n s) 1

/-- The `confidence` arithmetic of `answer_question`: `0.0` on an empty
context, otherwise the minimum of 1 and a third of the summed relevance
scores of the first three context results.  The LLM call is a boundary and contributes
nothing to this value. -/
def answer_confidence (context_results : List Metadata) : Rat :=
  if context_results.isEmpty then 0
  else min 1 (((context_results.take 3).map rsVal).sum / 3)

/-- The candidate loop of `DocumentSearchEngine.search`: walk the vector
index candidate (score, idx) pairs in order; skip the sentinel index -1;
shape the record
(copy `metadata[idx]`, set `relevance_score` and the full `chunk_text`); skip
it when a non-empty filter set rejects it; append, and stop as soon as
`top_k` results are accumulated.  An index outside the store (impossible for
the FAISS boundary) is skipped rather than raising. -/
def searchGo (chunks : List (List Char)) (meta : List Metadata)
    (filters : List (FilterKey × List Char)) (top_k : Nat) :
    List (Rat × Int) → List Metadata → List Metadata
  | [], results => results
  | (score, idx) :: rest, results =>
    if idx = -1 then searchGo chunks meta filters top_k rest results
    else
      match meta.get? idx.toNat, (chunks.get? idx.toNat : Option (List Char)) with
      | some m, some ch =>
        let shaped : Metadata := { m with relevance_score := some score, chunk_text := ch }
        if filters ≠ [] ∧ apply_filters shaped filters = false then
          searchGo chunks meta filters top_k rest results
        else
          let results' := results ++ [shaped]
          if top_k ≤ results'.length then results'
          else searchGo chunks meta filters top_k rest results'
      | _, _ => searchGo chunks meta filters top_k rest results

/-- Semantic search `DocumentSearchEngine.search` downstream of the
embedding/FAISS boundary: the index is queried for `2 * top_k` candidates
(`candidates` is that boundary answer) and the loop accumulates shaped,
filtered results. -/
def search_results (candidates : List (Rat × Int)) (chunks : List (List Char))
    (meta : List Metadata) (filters : List (FilterKey × List Char)) (top_k : Nat) :
    List Metadata :=
  searchGo chunks meta filters top_k candidates []


/-- A sample stored metadata record used in concrete instantiations. -/
def mA : Metadata :=
  { filename := "a.txt".toList, title := "a".toList, date := none, author := none,
    location := none, page := 1, chunk_id := 0, total_chunks := 1,
    chunk_text := "b".toList, relevance_score := none }

/-- The result record that `keyword_search` with keyword `"b"` shapes from `mA`. -/
def rB : Metadata := { mA with relevance_score := some 1, chunk_text := "b".toList }

/-- A record whose `date` field is absent. -/
def mNoDate : Metadata :=
  { filename := "n.txt".toList, title := "n".toList, date := none, author := none,
    location := none, page := 1, chunk_id := 0, total_chunks := 1,
    chunk_text := "x".toList, relevance_score := none }

/-- A result record carrying relevance score `9/10`. -/
def m910 : Metadata :=
  { filename := "c.txt".toList, title := "c".toList, date := none, author := none,
    location := none, page := 1, chunk_id := 0, total_chunks := 1,
    chunk_text := "y".toList, relevance_score := some (9 / 10) }

/-- Extracted fields of the first concrete document. -/
def baseA : BaseMeta :=
  { filename := "a.txt".toList, title := "a".toList, date := none, author := none,
    location := none, page := 1 }

/-- Extracted fields of the second concrete document. -/
def baseB : BaseMeta :=
  { filename := "b.txt".toList, title := "b".toList, date := none, author := none,
    location := none, page := 1 }

/-- A concrete two-document corpus: `a.txt` holds the word `alpha`, `b.txt`
holds the word `beta`; each document yields exactly one chunk. -/
def corpusDocs : List (BaseMeta × List Char) :=
  [(baseA, "alpha".toList), (baseB, "beta".toList)]

/-- The corpus chunk sequence built by `_load_documents`. -/
def corpusChunks : List (List Char) := (load_documents corpusDocs 2 1).1

/-- The corpus metadata sequence built by `_load_documents`. -/
def corpusMeta : List Metadata := (load_documents corpusDocs 2 1).2

/-- The stored record of `alpha` (global index 0, local `chunk_id` 0). -/
def mAlpha : Metadata :=
  { filename := "a.txt".toList, title := "a".toList, date := none, author := none,
    location := none, page := 1, chunk_id := 0, total_chunks := 1,
    chunk_text := "alpha".toList, relevance_score := none }

/-- The stored record of `beta` (global index 1, local `chunk_id` 0). -/
def mBeta : Metadata :=
  { filename := "b.txt".toList, title := "b".toList, date := none, author := none,
    location := none, page := 1, chunk_id := 0, total_chunks := 1,
    chunk_text := "beta".toList, relevance_score := none }

lemma insertDesc_perm (key : α → Rat) (a : α) (l : List α) :
    List.Perm (insertDesc key a l) (a :: l) := by
  induction l with
  | nil => simp [insertDesc]
  | cons b bs ih =>
    simp only [insertDesc]
    split
    · exact List.Perm.refl _
    · exact (ih.cons b).trans (List.Perm.swap a b bs)

lemma sortDesc_perm (key : α → Rat) (l : List α) : List.Perm (sortDesc key l) l := by
  induction l with
  | nil => simp [sortDesc]
  | cons a as ih =>
    exact (insertDesc_perm key a (sortDesc key as)).trans (ih.cons a)

lemma pairwise_insertDesc (key : α → Rat) (a : α) (l : List α)
    (h : l.Pairwise (fun x y => key y ≤ key x)) :
    (insertDesc key a l).Pairwise (fun x y => key y ≤ key x) := by
  induction l with
  | nil => simp [insertDesc]
  | cons b bs ih =>
    rw [List.pairwise_cons] at h
    simp only [insertDesc]
    split
    case isTrue hba =>
      refine List.pairwise_cons.mpr ⟨?_, List.pairwise_cons.mpr h⟩
      intro y hy
      rcases List.mem_cons.mp hy with rfl | hy'
      · exact hba
      · exact le_trans (h.1 y hy') hba
    case isFalse hba =>
      refine List.pairwise_cons.mpr ⟨?_, ih h.2⟩
      intro y hy
      have hmem := (insertDesc_perm key a bs).mem_iff.mp hy
      rcases List.mem_cons.mp hmem with rfl | hy'
      · exact le_of_not_le hba
      · exact h.1 y hy'

lemma pairwise_sortDesc (key : α → Rat) (l : List α) :
    (sortDesc key l).Pairwise (fun x y => key y ≤ key x) := by
  induction l with
  | nil => simp [sortDesc]
  | cons a as ih => exact pairwise_insertDesc key a _ ih

lemma mem_keyword_search {kws chunks : List (List Char)} {meta : List Metadata}
    {k : Nat} {r : Metadata} (h : r ∈ keyword_search kws chunks meta k) :
    ∃ p ∈ chunks.zip meta, 0 < countHits kws p.1 ∧
      r = { p.2 with
             relevance_score := some ((countHits kws p.1 : Rat) / (kws.length : Rat)),
             chunk_text := p.1 } := by
  unfold keyword_search at h
  have h1 := List.take_subset _ _ h
  have h2 := (sortDesc_perm rsVal _).mem_iff.mp h1
  obtain ⟨p, hp, hfp⟩ := List.mem_filterMap.mp h2
  by_cases hpos : 0 < countHits kws p.1
  · rw [if_pos hpos] at hfp
    refine ⟨p, hp, hpos, ?_⟩
    exact (Option.some_inj.mp hfp).symm
  · rw [if_neg hpos] at hfp; cases hfp

lemma keyword_search_concrete : keyword_search ["b".toList] ["b".toList] [mA] 1 = [rB] := by
  simp [keyword_search, countHits, occursIn, lowerStr, sortDesc, insertDesc, mA, rB]

/-- C10: keyword search with an empty keyword list returns the empty sequence
for every corpus and `top_k`; the `score > 0` guard can never hold there
(every hit count is zero), and any record that is returned at all forces a
positive keyword count, so the normalizing division `score / len(keywords)`
is never executed with a zero divisor. -/
theorem keyword_search_no_keywords :
    (∀ (chunks : List (List Char)) (meta : List Metadata) (top_k : Nat),
        keyword_search [] chunks meta top_k = []) ∧
    (∀ chunk : List Char, countHits [] chunk = 0) ∧
    (∀ (kws chunks : List (List Char)) (meta : List Metadata) (top_k : Nat)
        (r : Metadata), r ∈ keyword_search kws chunks meta top_k → 0 < kws.length) := by
  refine ⟨?_, ?_, ?_⟩
  · intro chunks meta top_k
    have hnil : ((chunks.zip meta).filterMap (fun p =>
        if 0 < countHits [] p.1 then
          some { p.2 with
                  relevance_score :=
                    some ((countHits [] p.1 : Rat) / (([] : List (List Char)).length : Rat)),
                  chunk_text := p.1 }
        else none)) = [] := by
      refine List.filterMap_eq_nil_iff.mpr ?_
      intro p _
      simp [countHits]
    rw [keyword_search, hnil]
    simp [sortDesc]
  · intro chunk; simp [countHits]
  · intro kws chunks meta top_k r hr
    obtain ⟨p, _, hpos, _⟩ := mem_keyword_search hr
    have hle := List.length_filter_le (fun kw => occursIn (lowerStr kw) (lowerStr p.1)) kws
    unfold countHits at hpos
    omega

theorem keyword_search_no_keywords_witness :
    rB ∈ keyword_search ["b".toList] ["b".toList] [mA] 1 ∧
    0 < (["b".toList] : List (List Char)).length :=
  ⟨by rw [keyword_search_concrete]; exact List.mem_singleton.mpr rfl,
   keyword_search_no_keywords.2.2 ["b".toList] ["b".toList] [mA] 1 rB
     (by rw [keyword_search_concrete]; exact List.mem_singleton.mpr rfl)⟩

/-- C2 counterexample: the record `mNoDate` has no date, yet it PASSES the
filter set `{date: "2024"}` — `_apply_filters` skips a filter whose field is
absent, so `matches(record, filter_set)` is `true` where the claim demands
`false`. -/
theorem apply_filters_missing_field_cex :
    truthyField mNoDate FilterKey.date = none ∧
    apply_filters mNoDate [(FilterKey.date, "2024".toList)] = true := by
  constructor
  · rfl
  · rfl

/-- C2 amended: filter matching is a conjunction over the predicates of the
fields the record carries a (present, non-empty) value for; a pair whose field
is absent or empty in the record is skipped — the record vacuously passes that
predicate — and an empty filter set always matches. -/
theorem apply_filters_skips_missing_fields (m : Metadata)
    (filters : List (FilterKey × List Char)) :
    apply_filters m filters =
      apply_filters m (filters.filter (fun p => (truthyField m p.1).isSome)) ∧
    apply_filters m [] = true := by
  refine ⟨?_, rfl⟩
  induction filters with
  | nil => rfl
  | cons p ps ih =>
    cases htf : truthyField m p.1 with
    | none =>
      simp only [apply_filters, List.all_cons, List.filter_cons, htf, Option.isSome_none,
        Bool.false_eq_true, if_false, Bool.true_and] at *
      exact ih
    | some v =>
      simp only [apply_filters, List.all_cons, List.filter_cons, htf, Option.isSome_some,
        if_true] at *
      rw [ih]

/-- C3 counterexample: on the single context result `m910` (score `9/10`) the
code returns `min 1 ((9/10) / 3) = 3/10`, while the claimed
`min 1 (mean of the top min(3, n) results)` is `9/10` — the divisor is the
constant 3, not the number of results used. -/
theorem answer_confidence_cex :
    answer_confidence [m910] = 3 / 10 ∧
    min 1 ((([m910].take (min 3 [m910].length)).map rsVal).sum /
        ((min 3 [m910].length : Nat) : Rat)) = 9 / 10 ∧
    ((3 : Rat) / 10) ≠ 9 / 10 := by
  refine ⟨?_, ?_, by norm_num⟩
  · simp [answer_confidence, rsVal, m910]
    norm_num
  · simp [rsVal, m910]
    norm_num

/-- C3 amended: for every non-empty context, the confidence equals
`min 1 ((sum of the relevance scores of the top min(3, n) results) / 3)`:
the numerator ranges over the top `min(3, n)` results but the divisor is the
constant 3 even when fewer than 3 results are supplied. -/
theorem answer_confidence_divisor_three (ctx : List Metadata) (h : ctx ≠ []) :
    answer_confidence ctx =
      min 1 (((ctx.take (min 3 ctx.length)).map rsVal).sum / 3) := by
  have ht : ctx.take (min 3 ctx.length) = ctx.take 3 := by
    rw [List.take_eq_take]
    omega
  rw [ht]
  unfold answer_confidence
  rw [if_neg (by simpa using h)]

theorem answer_confidence_divisor_three_witness :
    ([m910] : List Metadata) ≠ [] ∧
    answer_confidence [m910] =
      min 1 ((([m910].take (min 3 [m910].length)).map rsVal).sum / 3) :=
  ⟨by simp, answer_confidence_divisor_three [m910] (by simp)⟩

lemma iterateFeedback_lt_one {s : Rat} (h : s < 1) : ∀ n, iterateFeedback n s < 1
  | 0 => h
  | n + 1 => by
    have hn := iterateFeedback_lt_one h n
    simp only [iterateFeedback, feedbackStep]
    linarith

/-- C6: the feedback update sets the score to `(current + feedback) / 2`; from
a score in `[0, 1]` and feedback in `{0, 1}` the result stays in `[0, 1]`, and
iterating feedback `1.0` from a score strictly below 1 strictly increases the
score at every call while remaining strictly below 1 after any finite number
of calls (exact rational arithmetic). -/
theorem feedback_smoothing_props (cur fb : Rat) (h0 : 0 ≤ cur) (h1 : cur ≤ 1)
    (hfb : fb = 0 ∨ fb = 1) :
    (0 ≤ feedbackStep cur fb ∧ feedbackStep cur fb ≤ 1) ∧
    (cur < 1 → ∀ n : Nat,
       iterateFeedback n cur < iterateFeedback (n + 1) cur ∧ iterateFeedback n cur < 1) := by
  constructor
  · rcases hfb with rfl | rfl <;> constructor <;> simp only [feedbackStep] <;> linarith
  · intro hlt n
    have hn := iterateFeedback_lt_one hlt n
    refine ⟨?_, hn⟩
    simp only [iterateFeedback, feedbackStep]
    linarith

theorem feedback_smoothing_props_witness :
    ((0 : Rat) ≤ 1 / 2 ∧ (1 / 2 : Rat) ≤ 1 ∧ ((1 : Rat) = 0 ∨ (1 : Rat) = 1)) ∧
    (0 ≤ feedbackStep (1 / 2) 1 ∧ feedbackStep (1 / 2) 1 ≤ 1) ∧
    (iterateFeedback 2 (1 / 2) < iterateFeedback 3 (1 / 2) ∧ iterateFeedback 2 (1 / 2) < 1) :=
  ⟨⟨by norm_num, by norm_num, Or.inr rfl⟩,
   (feedback_smoothing_props (1 / 2) 1 (by norm_num) (by norm_num) (Or.inr rfl)).1,
   (feedback_smoothing_props (1 / 2) 1 (by norm_num) (by norm_num) (Or.inr rfl)).2
     (by norm_num) 2⟩

/-- C7: calling the feedback operation with an index outside
`[0, len(metadata))` is a silent no-op — it returns normally and leaves every
stored record unchanged. -/
theorem update_out_of_range_noop (meta : List Metadata) (i : Int) (fb : Rat)
    (h : i < 0 ∨ (meta.length : Int) ≤ i) :
    update_relevance_score meta i fb = meta := by
  unfold update_relevance_score
  rw [if_neg (by omega)]

theorem update_out_of_range_noop_witness :
    (((5 : Int) < 0) ∨ ((([mA] : List Metadata).length : Int) ≤ 5)) ∧
    update_relevance_score [mA] 5 1 = [mA] :=
  ⟨Or.inr (by simp), update_out_of_range_noop [mA] 5 1 (Or.inr (by simp))⟩


/-- C4: every record returned by keyword search carries
`relevance_score = (number of matching keywords) / (number of keywords)` and a
positive hit count (a chunk matching no keyword is never returned); a returned
chunk containing every keyword scores exactly 1; the returned sequence is
sorted in descending relevance-score order and has length at most `top_k`. -/
theorem keyword_search_ranked (kws chunks : List (List Char)) (meta : List Metadata)
    (top_k : Nat) :
    (∀ r ∈ keyword_search kws chunks meta top_k,
        0 < countHits kws r.chunk_text ∧
        r.relevance_score = some ((countHits kws r.chunk_text : Rat) / (kws.length : Rat)) ∧
        ((∀ kw ∈ kws, occursIn (lowerStr kw) (lowerStr r.chunk_text) = true) → kws ≠ [] →
          r.relevance_score = some 1)) ∧
    (keyword_search kws chunks meta top_k).Pairwise (fun a b => rsVal b ≤ rsVal a) ∧
    (keyword_search kws chunks meta top_k).length ≤ top_k := by
  refine ⟨?_, ?_, ?_⟩
  · intro r hr
    obtain ⟨p, hp, hpos, rfl⟩ := mem_keyword_search hr
    refine ⟨hpos, rfl, ?_⟩
    intro hall hne
    have hcnt : countHits kws p.1 = kws.length := by
      unfold countHits
      rw [List.filter_eq_self.mpr ?_]
      intro kw hkw
      exact hall kw hkw
    have hlen : (kws.length : Rat) ≠ 0 := by
      have : kws.length ≠ 0 := by
        intro h0
        exact hne (List.length_eq_zero.mp h0)
      exact_mod_cast this
    show some ((countHits kws p.1 : Rat) / (kws.length : Rat)) = some 1
    rw [hcnt, div_self hlen]
  · exact List.Pairwise.sublist (List.take_sublist _ _) (pairwise_sortDesc rsVal _)
  · exact le_trans (List.length_take_le _ _) (le_refl _)

theorem keyword_search_ranked_witness :
    rB ∈ keyword_search ["b".toList] ["b".toList] [mA] 1 ∧
    0 < countHits ["b".toList] rB.chunk_text ∧
    rB.relevance_score =
      some ((countHits ["b".toList] rB.chunk_text : Rat) /
        ((["b".toList] : List (List Char)).length : Rat)) ∧
    rB.relevance_score = some 1 := by
  have hmem : rB ∈ keyword_search ["b".toList] ["b".toList] [mA] 1 := by
    rw [keyword_search_concrete]; exact List.mem_singleton.mpr rfl
  have h := (keyword_search_ranked ["b".toList] ["b".toList] [mA] 1).1 rB hmem
  exact ⟨hmem, h.1, h.2.1, h.2.2 (by decide) (by decide)⟩

lemma searchGo_length (chunks : List (List Char)) (meta : List Metadata)
    (filters : List (FilterKey × List Char)) (top_k : Nat) (cands : List (Rat × Int)) :
    ∀ acc : List Metadata, acc.length < top_k →
      (searchGo chunks meta filters top_k cands acc).length ≤ top_k := by
  induction cands with
  | nil => intro acc h; simpa [searchGo] using h.le
  | cons c rest ih =>
    obtain ⟨score, idx⟩ := c
    intro acc h
    simp only [searchGo]
    split
    · exact ih acc h
    · cases hm : meta.get? idx.toNat with
      | none => simp only [hm]; exact ih acc h
      | some m =>
        cases hc : List.get? chunks idx.toNat with
        | none => simp only [hm, hc]; exact ih acc h
        | some ch =>
          simp only [hm, hc]
          split
          · exact ih acc h
          · split
            · simpa using h
            · refine ih _ ?_
              rename_i hnot
              simp only [List.length_append, List.length_singleton] at hnot ⊢
              omega

lemma searchGo_mem (chunks : List (List Char)) (meta : List Metadata)
    (filters : List (FilterKey × List Char)) (top_k : Nat) (cands : List (Rat × Int)) :
    ∀ acc : List Metadata, (∀ p ∈ cands, p.2 = -1 ∨ 0 ≤ p.2) →
      ∀ r ∈ searchGo chunks meta filters top_k cands acc,
        r ∈ acc ∨ ∃ s : Rat, ∃ i : Nat, ∃ m ch,
          meta.get? i = some m ∧ List.get? chunks i = some ch ∧
          ((s, (i : Int)) ∈ cands) ∧
          r = { m with relevance_score := some s, chunk_text := ch } := by
  induction cands with
  | nil => intro acc _ r hr; left; simpa [searchGo] using hr
  | cons c rest ih =>
    obtain ⟨score, idx⟩ := c
    intro acc hval r hr
    have hvrest : ∀ p ∈ rest, p.2 = -1 ∨ 0 ≤ p.2 :=
      fun p hp => hval p (List.mem_cons_of_mem _ hp)
    have push : r ∈ acc ∨ (∃ s : Rat, ∃ i : Nat, ∃ m ch,
          meta.get? i = some m ∧ List.get? chunks i = some ch ∧
          ((s, (i : Int)) ∈ rest) ∧
          r = { m with relevance_score := some s, chunk_text := ch }) →
        r ∈ acc ∨ ∃ s : Rat, ∃ i : Nat, ∃ m ch,
          meta.get? i = some m ∧ List.get? chunks i = some ch ∧
          ((s, (i : Int)) ∈ (score, idx) :: rest) ∧
          r = { m with relevance_score := some s, chunk_text := ch } := by
      rintro (h | ⟨s, i, m, ch, h1, h2, h3, h4⟩)
      · exact Or.inl h
      · exact Or.inr ⟨s, i, m, ch, h1, h2, List.mem_cons_of_mem _ h3, h4⟩
    simp only [searchGo] at hr
    by_cases hidx : idx = -1
    · rw [if_pos hidx] at hr
      exact push (ih acc hvrest r hr)
    · rw [if_neg hidx] at hr
      have hix : (0 : Int) ≤ idx := by
        rcases hval (score, idx) (List.mem_cons_self _ _) with h | h
        · exact absurd h hidx
        · exact h
      cases hm : meta.get? idx.toNat with
      | none => rw [hm] at hr; exact push (ih acc hvrest r hr)
      | some m =>
        cases hc : List.get? chunks idx.toNat with
        | none => rw [hm, hc] at hr; exact push (ih acc hvrest r hr)
        | some ch =>
          rw [hm, hc] at hr
          simp only at hr
          split at hr
          · exact push (ih acc hvrest r hr)
          · split at hr
            · rcases List.mem_append.mp hr with h | h
              · exact Or.inl h
              · right
                refine ⟨score, idx.toNat, m, ch, hm, hc, ?_, List.mem_singleton.mp h⟩
                rw [Int.toNat_of_nonneg hix]
                exact List.mem_cons_self _ _
            · rcases ih _ hvrest r hr with h | h
              · rcases List.mem_append.mp h with h' | h'
                · exact Or.inl h'
                · right
                  refine ⟨score, idx.toNat, m, ch, hm, hc, ?_, List.mem_singleton.mp h'⟩
                  rw [Int.toNat_of_nonneg hix]
                  exact List.mem_cons_self _ _
              · exact push (Or.inr h)

/-- C5: downstream of the vector-index boundary (which answers `2 * top_k`
`(score, index)` pairs, each index either the sentinel −1 or non-negative),
semantic search returns at most `top_k` results, and every returned record is
derived from a real position of the corpus store — a non-sentinel candidate
index at which both the metadata record and the chunk text exist. -/
theorem search_results_bounded (cands : List (Rat × Int)) (chunks : List (List Char))
    (meta : List Metadata) (filters : List (FilterKey × List Char)) (top_k : Nat)
    (hlen : cands.length = 2 * top_k)
    (hval : ∀ p ∈ cands, p.2 = -1 ∨ 0 ≤ p.2) :
    (search_results cands chunks meta filters top_k).length ≤ top_k ∧
    ∀ r ∈ search_results cands chunks meta filters top_k,
      ∃ s : Rat, ∃ i : Nat, i < meta.length ∧ ∃ m ch,
        meta.get? i = some m ∧ List.get? chunks i = some ch ∧ ((s, (i : Int)) ∈ cands) ∧
        r = { m with relevance_score := some s, chunk_text := ch } := by
  constructor
  · rcases Nat.eq_zero_or_pos top_k with h0 | hpos
    · subst h0
      have hnil : cands = [] := List.length_eq_zero.mp (by omega)
      subst hnil
      simp [search_results, searchGo]
    · exact searchGo_length chunks meta filters top_k cands [] (by simpa using hpos)
  · intro r hr
    rcases searchGo_mem chunks meta filters top_k cands [] hval r hr with h | ⟨s, i, m, ch, h1, h2, h3, h4⟩
    · cases h
    · have hi : i < meta.length := by
        by_contra hge
        rw [List.get?_eq_none.mpr (by omega)] at h1
        cases h1
      exact ⟨s, i, hi, m, ch, h1, h2, h3, h4⟩

theorem search_results_bounded_witness :
    (search_results [((1 : Rat) / 2, (0 : Int)), ((1 : Rat) / 3, (-1 : Int))]
      ["b".toList] [mA] [] 1).length ≤ 1 :=
  (search_results_bounded [((1 : Rat) / 2, (0 : Int)), ((1 : Rat) / 3, (-1 : Int))]
    ["b".toList] [mA] [] 1 rfl (by decide)).1


lemma rawSplit_nil : rawSplit [] = [] := rfl

lemma rawSplit_cons (d : Char) (t : List Char) :
    rawSplit (d :: t) = splitStep d (rawSplit t) := rfl

lemma rawSplit_nonws (s : List Char) :
    ∀ w ∈ rawSplit s, ∀ c ∈ w, c.isWhitespace = false := by
  induction s with
  | nil => intro w hw; cases hw
  | cons d t ih =>
    intro w hw c hc
    rw [rawSplit_cons] at hw
    unfold splitStep at hw
    cases hd : d.isWhitespace with
    | true =>
      rw [hd] at hw
      simp only [if_true] at hw
      rcases List.mem_cons.mp hw with rfl | hw'
      · cases hc
      · exact ih w hw' c hc
    | false =>
      rw [hd] at hw
      simp only [Bool.false_eq_true, if_false] at hw
      cases hraw : rawSplit t with
      | nil =>
        rw [hraw] at hw
        rcases List.mem_singleton.mp hw with rfl
        rcases List.mem_singleton.mp hc with rfl
        exact hd
      | cons g gs =>
        rw [hraw] at hw
        rcases List.mem_cons.mp hw with rfl | hw'
        · rcases List.mem_cons.mp hc with rfl | hcg
          · exact hd
          · exact ih g (by rw [hraw]; exact List.mem_cons_self _ _) c hcg
        · exact ih w (by rw [hraw]; exact List.mem_cons_of_mem _ hw') c hc

lemma splitWords_words {s w : List Char} (h : w ∈ splitWords s) :
    w ≠ [] ∧ ∀ c ∈ w, c.isWhitespace = false := by
  unfold splitWords at h
  obtain ⟨hmem, hne⟩ := List.mem_filter.mp h
  exact ⟨by simpa using hne, fun c hc => rawSplit_nonws s w hmem c hc⟩

lemma rawSplit_all_nil {s : List Char} (h : ∀ c ∈ s, c.isWhitespace = true) :
    ∀ w ∈ rawSplit s, w = [] := by
  induction s with
  | nil => intro w hw; cases hw
  | cons d t ih =>
    intro w hw
    rw [rawSplit_cons] at hw
    unfold splitStep at hw
    rw [h d (List.mem_cons_self _ _)] at hw
    simp only [if_true] at hw
    rcases List.mem_cons.mp hw with rfl | hw'
    · rfl
    · exact ih (fun c hc => h c (List.mem_cons_of_mem _ hc)) w hw'

lemma splitWords_nil_of_ws {s : List Char} (h : ∀ c ∈ s, c.isWhitespace = true) :
    splitWords s = [] := by
  unfold splitWords
  apply List.filter_eq_nil_iff.mpr
  intro w hw
  simp [rawSplit_all_nil h w hw]

lemma splitWords_covers {s : List Char} {c : Char} (hc : c ∈ s)
    (hnw : c.isWhitespace = false) :
    ∃ w ∈ splitWords s, c ∈ w := by
  induction s with
  | nil => cases hc
  | cons d t ih =>
    rcases List.mem_cons.mp hc with rfl | hct
    · cases hraw : rawSplit t with
      | nil =>
        refine ⟨[c], ?_, List.mem_singleton.mpr rfl⟩
        unfold splitWords
        rw [rawSplit_cons, hraw]
        simp [splitStep, hnw]
      | cons g gs =>
        refine ⟨c :: g, ?_, List.mem_cons_self _ _⟩
        unfold splitWords
        rw [rawSplit_cons, hraw]
        simp [splitStep, hnw]
    · obtain ⟨w, hw, hcw⟩ := ih hct
      cases hd : d.isWhitespace with
      | true =>
        refine ⟨w, ?_, hcw⟩
        unfold splitWords at hw ⊢
        rw [rawSplit_cons]
        unfold splitStep
        rw [hd]
        simp only [if_true, List.filter_cons]
        simpa using hw
      | false =>
        cases hraw : rawSplit t with
        | nil =>
          exfalso
          unfold splitWords at hw
          rw [hraw] at hw
          cases hw
        | cons g gs =>
          unfold splitWords at hw
          rw [hraw] at hw
          rw [List.filter_cons] at hw
          have hout : splitWords (d :: t) = (d :: g) :: gs.filter (fun u => u ≠ []) := by
            unfold splitWords
            rw [rawSplit_cons, hraw]
            unfold splitStep
            rw [hd]
            simp [List.filter_cons]
          by_cases hg : g = []
          · subst hg
            simp only [ne_eq, not_true_eq_false, decide_False, Bool.false_eq_true,
              if_false] at hw
            refine ⟨w, ?_, hcw⟩
            rw [hout]
            exact List.mem_cons_of_mem _ hw
          · simp only [ne_eq, hg, not_false_eq_true, decide_True, if_true] at hw
            rcases List.mem_cons.mp hw with rfl | hw'
            · refine ⟨d :: w, ?_, List.mem_cons_of_mem _ hcw⟩
              rw [hout]
              exact List.mem_cons_self _ _
            · refine ⟨w, ?_, hcw⟩
              rw [hout]
              exact List.mem_cons_of_mem _ hw'


lemma rawSplit_append_nonws (w s : List Char) (hw : ∀ c ∈ w, c.isWhitespace = false) :
    rawSplit (w ++ s) =
      match rawSplit s with
      | [] => if w = [] then [] else [w]
      | g :: gs => (w ++ g) :: gs := by
  induction w with
  | nil =>
    cases hraw : rawSplit s with
    | nil => simp [hraw]
    | cons g gs => simp [hraw]
  | cons a w' ih =>
    have ha : a.isWhitespace = false := hw a (List.mem_cons_self _ _)
    have hw' : ∀ c ∈ w', c.isWhitespace = false :=
      fun c hc => hw c (List.mem_cons_of_mem _ hc)
    rw [List.cons_append, rawSplit_cons, ih hw']
    cases hraw : rawSplit s with
    | nil =>
      by_cases hw'nil : w' = []
      · subst hw'nil
        simp [splitStep, ha]
      · simp [splitStep, ha, hw'nil]
    | cons g gs =>
      simp [splitStep, ha]

lemma splitWords_joinWords : ∀ (ws : List (List Char)),
    (∀ w ∈ ws, w ≠ [] ∧ ∀ c ∈ w, c.isWhitespace = false) →
    splitWords (joinWords ws) = ws
  | [], _ => rfl
  | [w], h => by
    have hmem := h w (List.mem_singleton.mpr rfl)
    have hr : rawSplit (w ++ []) =
        match rawSplit ([] : List Char) with
        | [] => if w = [] then [] else [w]
        | g :: gs => (w ++ g) :: gs :=
      rawSplit_append_nonws w [] hmem.2
    rw [rawSplit_nil] at hr
    simp only [List.append_nil] at hr
    show ((rawSplit w).filter (fun u => u ≠ [])) = [w]
    rw [hr, if_neg hmem.1]
    simp [hmem.1]
  | w :: v :: vs, h => by
    have hmem := h w (List.mem_cons_self _ _)
    have hrest := splitWords_joinWords (v :: vs)
      (fun u hu => h u (List.mem_cons_of_mem _ hu))
    have hj : joinWords (w :: v :: vs) = w ++ ' ' :: joinWords (v :: vs) := rfl
    have hr := rawSplit_append_nonws w (' ' :: joinWords (v :: vs)) hmem.2
    rw [rawSplit_cons] at hr
    have hsp : splitStep ' ' (rawSplit (joinWords (v :: vs)))
        = [] :: rawSplit (joinWords (v :: vs)) := by
      simp [splitStep]
    rw [hsp] at hr
    show ((rawSplit (joinWords (w :: v :: vs))).filter (fun u => u ≠ [])) = w :: v :: vs
    rw [hj, hr]
    simp only [List.append_nil, List.filter_cons]
    rw [if_pos (by simpa using hmem.1)]
    exact congrArg (List.cons w) hrest

lemma mem_joinWords {c : Char} : ∀ {ws : List (List Char)} {w : List Char},
    c ∈ w → w ∈ ws → c ∈ joinWords ws
  | [], _, _, hw => absurd hw (List.not_mem_nil _)
  | [u], w, hc, hw => by
    rcases List.mem_singleton.mp hw with rfl
    exact hc
  | u :: v :: vs, w, hc, hw => by
    rcases List.mem_cons.mp hw with rfl | hw'
    · exact List.mem_append_left _ hc
    · have : c ∈ joinWords (v :: vs) := mem_joinWords hc hw'
      exact List.mem_append_right _ (List.mem_cons_of_mem _ this)

lemma hasNonWs_of_mem {ws : List (List Char)} {w : List Char} {c : Char} (hc : c ∈ w)
    (hw : w ∈ ws) (hnw : c.isWhitespace = false) : hasNonWs (joinWords ws) = true := by
  unfold hasNonWs
  rw [List.any_eq_true]
  exact ⟨c, mem_joinWords hc hw, by simp [hnw]⟩

lemma chunkWindows_mem (size step : Nat) (hsize : 0 < size) :
    ∀ (l : List α), ∀ win ∈ chunkWindows size step l, win ≠ [] ∧ ∀ x ∈ win, x ∈ l := by
  suffices hweak : ∀ (n : Nat) (l : List α), l.length ≤ n →
      ∀ win ∈ chunkWindows size step l, win ≠ [] ∧ ∀ x ∈ win, x ∈ l by
    intro l
    exact hweak l.length l le_rfl
  intro n
  induction n with
  | zero =>
    intro l hl win hw
    have : l = [] := List.eq_nil_of_length_eq_zero (Nat.le_zero.mp hl)
    subst this
    simp [chunkWindows] at hw
  | succ n ihn =>
    intro l hl win hw
    cases l with
    | nil => simp [chunkWindows] at hw
    | cons a as =>
      by_cases hstep : step = 0
      · simp [chunkWindows, hstep] at hw
      · rw [chunkWindows, dif_neg hstep] at hw
        rcases List.mem_cons.mp hw with rfl | hw'
        · constructor
          · simp [List.take_eq_nil_iff]
            omega
          · intro x hx
            exact List.take_subset _ _ hx
        · have hlen : ((a :: as).drop step).length ≤ n := by
            rw [List.length_drop]
            simp only [List.length_cons] at hl ⊢
            omega
          obtain ⟨hne, hsub⟩ := ihn _ hlen win hw'
          exact ⟨hne, fun x hx => List.drop_subset _ _ (hsub x hx)⟩

lemma windows_cover (size step : Nat) (hstep : 0 < step) (hss : step ≤ size) :
    ∀ (l : List α), l.length ≤ ((chunkWindows size step l).map List.length).sum := by
  suffices hweak : ∀ (n : Nat) (l : List α), l.length ≤ n →
      l.length ≤ ((chunkWindows size step l).map List.length).sum by
    intro l
    exact hweak l.length l le_rfl
  intro n
  induction n with
  | zero =>
    intro l hl
    rw [Nat.le_zero.mp hl]
    exact Nat.zero_le _
  | succ n ihn =>
    intro l hl
    cases l with
    | nil => simp [chunkWindows]
    | cons a as =>
      rw [chunkWindows, dif_neg (by omega : ¬ step = 0)]
      simp only [List.map_cons, List.sum_cons, List.length_take]
      have hlen : ((a :: as).drop step).length ≤ n := by
        rw [List.length_drop]
        simp only [List.length_cons] at hl ⊢
        omega
      have hd := ihn _ hlen
      rw [List.length_drop] at hd
      simp only [List.length_cons] at hd ⊢
      omega


/-- C8: with `overlap < chunk_size`, an input containing at least one
non-whitespace character (at least one whitespace-separated word) yields at
least one chunk, every produced chunk being a non-empty string, while an
empty or whitespace-only input yields the empty sequence. -/
theorem chunker_output (content : List Char) (size ov : Nat) (hov : ov < size) :
    ((∃ c ∈ content, c.isWhitespace = false) →
      split_into_chunks content size ov ≠ [] ∧
      ∀ ch ∈ split_into_chunks content size ov, ch ≠ []) ∧
    ((∀ c ∈ content, c.isWhitespace = true) → split_into_chunks content size ov = []) := by
  constructor
  · rintro ⟨c, hc, hnw⟩
    constructor
    · obtain ⟨w, hw, _⟩ := splitWords_covers hc hnw
      cases hsw : splitWords content with
      | nil => rw [hsw] at hw; cases hw
      | cons w0 rest =>
        unfold split_into_chunks
        rw [hsw, chunkWindows, dif_neg (by omega : ¬ size - ov = 0)]
        simp only [List.map_cons, List.filter_cons]
        have hwin : hasNonWs (joinWords ((w0 :: rest).take size)) = true := by
          have hw0 : w0 ∈ (w0 :: rest).take size := by
            cases size with
            | zero => omega
            | succ k => simp [List.take_cons]
          have hjw := splitWords_words (s := content) (w := w0)
            (by rw [hsw]; exact List.mem_cons_self _ _)
          obtain ⟨c0, hc0⟩ := List.exists_mem_of_ne_nil w0 hjw.1
          exact hasNonWs_of_mem hc0 hw0 (hjw.2 c0 hc0)
        rw [hwin]
        simp
    · intro ch hch
      unfold split_into_chunks at hch
      have hpass := (List.mem_filter.mp hch).2
      intro hnil
      subst hnil
      simp [hasNonWs] at hpass
  · intro hws
    unfold split_into_chunks
    rw [splitWords_nil_of_ws hws]
    simp [chunkWindows]

theorem chunker_output_witness :
    (1 < 2) ∧
    (∃ c ∈ "hi there".toList, c.isWhitespace = false) ∧
    split_into_chunks "hi there".toList 2 1 ≠ [] :=
  ⟨by decide, by decide,
   ((chunker_output "hi there".toList 2 1 (by decide)).1 (by decide)).1⟩

/-- C9: with `0 < overlap < chunk_size`, the total whitespace-token count over
all produced chunks is at least the whitespace-token count of the source
document — every source word lands in at least one window. -/
theorem chunk_word_coverage (content : List Char) (size ov : Nat)
    (h1 : 0 < ov) (h2 : ov < size) :
    (splitWords content).length ≤
      ((split_into_chunks content size ov).map (fun ch => (splitWords ch).length)).sum := by
  have hprops : ∀ w ∈ splitWords content, w ≠ [] ∧ ∀ c ∈ w, c.isWhitespace = false :=
    fun w hw => splitWords_words hw
  have hwin := chunkWindows_mem size (size - ov) (by omega) (splitWords content)
  have hres : ∀ win ∈ chunkWindows size (size - ov) (splitWords content),
      splitWords (joinWords win) = win := by
    intro win hw
    exact splitWords_joinWords win (fun u hu => hprops u ((hwin win hw).2 u hu))
  have hfilter : split_into_chunks content size ov
      = (chunkWindows size (size - ov) (splitWords content)).map joinWords := by
    unfold split_into_chunks
    apply List.filter_eq_self.mpr
    intro ch hch
    obtain ⟨win, hwinm, rfl⟩ := List.mem_map.mp hch
    obtain ⟨hne, hsub⟩ := hwin win hwinm
    obtain ⟨u, hu⟩ := List.exists_mem_of_ne_nil win hne
    have hup := hprops u (hsub u hu)
    obtain ⟨c0, hc0⟩ := List.exists_mem_of_ne_nil u hup.1
    exact hasNonWs_of_mem hc0 hu (hup.2 c0 hc0)
  rw [hfilter, List.map_map]
  have hmapeq : (chunkWindows size (size - ov) (splitWords content)).map
        ((fun ch => (splitWords ch).length) ∘ joinWords)
      = (chunkWindows size (size - ov) (splitWords content)).map List.length := by
    apply List.map_congr_left
    intro win hwinm
    simp only [Function.comp_apply]
    rw [hres win hwinm]
  rw [hmapeq]
  exact windows_cover size (size - ov) (by omega) (by omega) _

theorem chunk_word_coverage_witness :
    (0 < 1) ∧ (1 < 2) ∧
    (splitWords "a b c".toList).length ≤
      ((split_into_chunks "a b c".toList 2 1).map (fun ch => (splitWords ch).length)).sum :=
  ⟨by decide, by decide, chunk_word_coverage "a b c".toList 2 1 (by decide) (by decide)⟩


lemma corpus_eval : corpusChunks = ["alpha".toList, "beta".toList] ∧
    corpusMeta = [mAlpha, mBeta] := by
  constructor <;>
    simp [corpusChunks, corpusMeta, corpusDocs, baseA, baseB, load_documents,
      split_into_chunks, splitWords, rawSplit, splitStep, chunkWindows, joinWords,
      hasNonWs, truncate300, mAlpha, mBeta]

/-- C1 (violated by the code): on the two-document corpus, keyword search for
`beta` returns the record stored at global index 1, but the identifier the
record exposes for feedback, `chunk_id`, is the per-document ordinal 0;
calling the feedback operation with it smooths the relevance score of the
record at global index 0 — `alpha`, an unrelated chunk of the other document —
and leaves the record the result was derived from unchanged. -/
theorem feedback_key_mismatch :
    keyword_search ["beta".toList] corpusChunks corpusMeta 5
      = [{ mBeta with relevance_score := some 1, chunk_text := "beta".toList }] ∧
    ({ mBeta with relevance_score := some 1, chunk_text := "beta".toList } :
      Metadata).chunk_id = 0 ∧
    corpusMeta.get? 1 = some mBeta ∧
    update_relevance_score corpusMeta
        (({ mBeta with relevance_score := some 1, chunk_text := "beta".toList } :
          Metadata).chunk_id : Int) 1
      = [{ mAlpha with relevance_score := some (3 / 4) }, mBeta] ∧
    ({ mAlpha with relevance_score := some (3 / 4) } : Metadata) ≠ mAlpha := by
  obtain ⟨hc, hm⟩ := corpus_eval
  refine ⟨?_, rfl, by rw [hm]; rfl, ?_, by simp [mAlpha]⟩
  · rw [hc, hm]
    simp [keyword_search, countHits, occursIn, lowerStr, sortDesc, insertDesc,
      mAlpha, mBeta]
  · rw [hm]
    show update_relevance_score [mAlpha, mBeta] ((0 : Nat) : Int) 1 = _
    simp [update_relevance_score, feedbackStep, mAlpha, mBeta]
    norm_num

end DocSearch
